import Mathlib

/-!
# Verification of the seq-data-file chunk container

A shallow embedding of the `seq-data-file` Rust crate: a file format holding
`[magic][header][chunk]*` where each chunk is a 4-byte little-endian length
followed by that many payload bytes.

Files and streams are modelled as `List Nat` of byte values. I/O reads are
modelled deterministically: a `read` into a buffer of `n` bytes returns
`min n (remaining bytes)` bytes, the usual behaviour of regular-file reads.
Fallible operations return `Except Err`, where `Err` distinguishes ordinary
`std::io::Error` values (`Err.io`) from Rust panics (`Err.panicked`) such as
failed `assert!`, out-of-range slice indexing and `Option::unwrap` on `None`.
The file system, where an operation's effect on it matters, is threaded as an
explicit `Option (List Nat)` (absent or present file contents).
-/

/-- Outcome of a fallible operation: an `std::io::Error` carrying its message,
or a Rust panic (assertion failure, slice indexing out of range, unwrap of
`None`). -/
inductive Err where
  | io (msg : String)
  | panicked (msg : String)
deriving DecidableEq, Repr

/-- The `SeqDataFormat` trait: magic bytes (may be empty) and the size of the
header in bytes. -/
structure Fmt where
  magic : List Nat
  headerSize : Nat
deriving DecidableEq, Repr

/-- `u32::to_le_bytes`: the four little-endian bytes of `n` (for
`n ≤ 0xffffffff` this is exact). -/
def toLE4 (n : Nat) : List Nat :=
  [n % 256, n / 256 % 256, n / 65536 % 256, n / 16777216 % 256]

/-- `u32::from_le_bytes` on a 4-byte buffer (callers always pass exactly four
bytes; any other shape is unreachable). -/
def fromLE4 (l : List Nat) : Nat :=
  match l with
  | [b0, b1, b2, b3] => b0 + 256 * b1 + 65536 * b2 + 16777216 * b3
  | _ => 0

/-- `optional_read_exact` (src/lib.rs:110): fill a buffer of `n` bytes from the
stream `s`. Under the deterministic read model the loop collapses to: the total
read is `min n s.length` bytes; if that is `0` the result is `None` (clean
end-of-stream, also when `n = 0` since the loop body never runs); if it is
positive but short of `n`, the buffer is partially filled and the result is the
`UnexpectedEof` error; otherwise the filled buffer and the remaining stream are
returned. -/
def optional_read_exact (s : List Nat) (n : Nat) :
    Option (Except Err (List Nat × List Nat)) :=
  let r := min n s.length
  if r = 0 then none
  else if r < n then some (.error (.io "buffer partially filled"))
  else some (.ok (s.take n, s.drop n))

/-- `std::io::Read::read_exact`: succeeds with the `n` bytes read and the
remaining stream when enough bytes are available, otherwise fails with the
standard `UnexpectedEof` error. -/
def read_exact (s : List Nat) (n : Nat) : Except Err (List Nat × List Nat) :=
  if n ≤ s.length then .ok (s.take n, s.drop n)
  else .error (.io "failed to fill whole buffer")

/-- The magic-checking loop of `read_magic_and_header` (src/lib.rs:147).
`full` is `Format::MAGIC.len()` (the loop computes `sz` from the FULL magic
length, not from the remaining slice — faithfully kept, it is the source of a
panic for long magics); `slice` is `magic_slice`, the part of the magic still
to check; `s` is the remaining file stream. Each round reads
`rd = min (min full 16) s.length` bytes; `rd = 0` is an EOF error; indexing
`magic_slice[0..rd]` with `rd > magic_slice.len()` is a Rust panic; a byte
mismatch is an error; otherwise the round consumes `rd` bytes of both.
`fuel` makes the recursion structural; every round with a non-empty slice
consumes at least one of its bytes, so `fuel = slice.length` (as used by
`read_magic_and_header`) never exhausts. -/
def readMagicLoop (full : Nat) (fuel : Nat) (slice : List Nat) (s : List Nat) :
    Except Err (List Nat) :=
  match fuel, slice with
  | _, [] => .ok s
  | 0, _ :: _ => .error (.panicked "unreachable: loop fuel exhausted")
  | fuel + 1, a :: rest =>
      let sliceFull := a :: rest
      let sz := min full 16
      let rd := min sz s.length
      if rd = 0 then .error (.io "unexpected EOF in magic reading")
      else if sliceFull.length < rd then
        .error (.panicked "range end index out of range for slice")
      else if sliceFull.take rd ≠ s.take rd then
        .error (.io "magic do not match expected value")
      else readMagicLoop full fuel (sliceFull.drop rd) (s.drop rd)

/-- `read_magic_and_header` (src/lib.rs:139): check the magic byte-by-buffer,
then read exactly `HEADER_SIZE` header bytes. Returns the header read and the
remaining stream (the reader's position after the call). -/
def read_magic_and_header (fmt : Fmt) (s : List Nat) :
    Except Err (List Nat × List Nat) :=
  match readMagicLoop fmt.magic.length fmt.magic.length fmt.magic s with
  | .error e => .error e
  | .ok rest =>
      match read_exact rest fmt.headerSize with
      | .error e => .error e
      | .ok (hdr, rest2) => .ok (hdr, rest2)

/-- `get_file_length` (src/lib.rs:170): the payload-domain length from file
metadata, failing when the file cannot even hold magic and header. -/
def get_file_length (fmt : Fmt) (file : List Nat) : Except Err Nat :=
  if file.length < fmt.magic.length + fmt.headerSize then
    .error (.io "file not contains enough bytes for magic and header")
  else .ok (file.length - (fmt.magic.length + fmt.headerSize))

/-- State of a `SeqDataReader`: the unread remainder of the stream behind the
`BufReader`, the chunk-offset cursor `pos`, and the cached payload length
`len` computed at open time. -/
structure SeqReader where
  stream : List Nat
  pos : Nat
  len : Nat
deriving DecidableEq, Repr

/-- `SeqDataReader::open` (src/lib.rs:189): compute the payload length, read
magic and header, and return the reader (positioned just after the header,
`pos = 0`) together with the header bytes. -/
def seqOpen (fmt : Fmt) (file : List Nat) :
    Except Err (SeqReader × List Nat) :=
  match get_file_length fmt file with
  | .error e => .error e
  | .ok len =>
      match read_magic_and_header fmt file with
      | .error e => .error e
      | .ok (hdr, rest) => .ok ({ stream := rest, pos := 0, len := len }, hdr)

/-- `SeqDataReader::next` (src/lib.rs:218): read the 4-byte length prefix via
`optional_read_exact` (`None` = clean end of stream), then `read_exact` the
declared payload. On success returns the chunk's offset (the previous `pos`)
and payload and advances `pos` by `4 + len`. On error the underlying reader
has consumed up to end-of-stream. -/
def seqNext (r : SeqReader) : Option (Except Err (Nat × List Nat)) × SeqReader :=
  match optional_read_exact r.stream 4 with
  | none => (none, r)
  | some (.error e) => (some (.error e), { r with stream := [] })
  | some (.ok (lenbuf, rest)) =>
      let len := fromLE4 lenbuf
      match read_exact rest len with
      | .error e => (some (.error e), { r with stream := [] })
      | .ok (out, rest2) =>
          (some (.ok (r.pos, out)),
           { r with stream := rest2, pos := r.pos + 4 + len })

/-- Iterate `seqNext` `n` times, collecting the returned values in order. -/
def runReader (r : SeqReader) : Nat → List (Option (Except Err (Nat × List Nat)))
  | 0 => []
  | n + 1 => (seqNext r).1 :: runReader (seqNext r).2 n

/-- The configuration-error message built by `SeqDataWriter::create`/`open`. -/
def headerSizeMsg (expected got : Nat) : String :=
  "header has invalid size, expecting " ++ toString expected ++
    " but got " ++ toString got

/-- `SeqDataWriter::create` (src/lib.rs:27) with the file system threaded
explicitly (`fs = none`: no file at the path). The header-size check runs
before the file is opened; `create_new(true)` fails if the file exists;
otherwise the magic and header are written as the new file's contents. -/
def writerCreate (fmt : Fmt) (fs : Option (List Nat)) (header : List Nat) :
    Except Err Unit × Option (List Nat) :=
  if fmt.headerSize ≠ header.length then
    (.error (.io (headerSizeMsg fmt.headerSize header.length)), fs)
  else
    match fs with
    | some f => (.error (.io "File exists"), some f)
    | none => (.ok (), some (fmt.magic ++ header))

/-- `SeqDataWriter::open` (src/lib.rs:58): check the supplied header's size,
require the file to exist, validate the magic and read the stored header from
the start of the file, and return that stored header. Note the code never
compares the stored header bytes with the supplied `header` argument. -/
def writerOpen (fmt : Fmt) (fs : Option (List Nat)) (header : List Nat) :
    Except Err (List Nat) :=
  if fmt.headerSize ≠ header.length then
    .error (.io (headerSizeMsg fmt.headerSize header.length))
  else
    match fs with
    | none => .error (.io "No such file or directory")
    | some file =>
        match read_magic_and_header fmt file with
        | .error e => .error e
        | .ok (hdr, _) => .ok hdr

/-- `SeqDataWriter::append` (src/lib.rs:91): `assert!(data.len() <= u32::MAX)`
(a panic on violation), then append the little-endian length and the data to
the end of the file. -/
def writerAppend (file : List Nat) (data : List Nat) : Except Err (List Nat) :=
  if data.length ≤ 0xffffffff then .ok (file ++ toLE4 data.length ++ data)
  else .error (.panicked "assertion failed: data.len() <= 0xffff_ffff")

/-- Append a sequence of chunks in order, stopping at the first failure. -/
def writerAppendAll (file : List Nat) : List (List Nat) → Except Err (List Nat)
  | [] => .ok file
  | p :: ps =>
      match writerAppend file p with
      | .error e => .error e
      | .ok f2 => writerAppendAll f2 ps

/-- The encoded form of one chunk: 4-byte little-endian length, then payload. -/
def encodeChunk (p : List Nat) : List Nat :=
  toLE4 p.length ++ p

/-- The encoded form of a chunk sequence, in order. -/
def encodeChunks : List (List Nat) → List Nat
  | [] => []
  | p :: ps => encodeChunk p ++ encodeChunks ps

/-- The byte size of an encoded chunk sequence: each chunk occupies
`4 + payload length` bytes. -/
def chunksSize : List (List Nat) → Nat
  | [] => 0
  | p :: ps => 4 + p.length + chunksSize ps

/-- The offset of the `i`-th chunk within the payload domain: the running sum
over the preceding payloads of `4 + payload length` (0 for the first chunk). -/
def offsetOf (ps : List (List Nat)) (i : Nat) : Nat :=
  chunksSize (ps.take i)

/-- The value sequence a sequential reader starting at offset `pos` is
expected to return for the chunk list `ps`: each chunk with its running-sum
offset. -/
def expectedOuts (pos : Nat) : List (List Nat) → List (Option (Except Err (Nat × List Nat)))
  | [] => []
  | p :: ps => some (.ok (pos, p)) :: expectedOuts (pos + 4 + p.length) ps

/-- The full file the writer produces for a format, header and chunk list:
magic, header, then the encoded chunks (see `writerAppendAll_encodes`). -/
def fileOf (fmt : Fmt) (header : List Nat) (ps : List (List Nat)) : List Nat :=
  fmt.magic ++ header ++ encodeChunks ps

/-- State of a `SeqDataReaderSeek`: the payload-domain bytes of the file, the
cached payload length `len` from open-time metadata, and the file cursor
position `cur` relative to the start of the payload domain. -/
structure SeekReader where
  payload : List Nat
  len : Nat
  cur : Nat
deriving DecidableEq, Repr

/-- `SeqDataReaderSeek::open` (src/lib.rs:262): identical validation to the
sequential reader; `start` is the file position right after the header, so the
cursor starts at payload-domain position 0. -/
def seekOpen (fmt : Fmt) (file : List Nat) :
    Except Err (SeekReader × List Nat) :=
  match get_file_length fmt file with
  | .error e => .error e
  | .ok len =>
      match read_magic_and_header fmt file with
      | .error e => .error e
      | .ok (hdr, rest) => .ok ({ payload := rest, len := len, cur := 0 }, hdr)

/-- `SeqDataReaderSeek::next` (src/lib.rs:284): `read_exact` the 4-byte length
prefix at the current cursor (plain `read_exact`, so a clean end-of-stream is
the `UnexpectedEof` error, not a `None`), then `read_exact` the payload. On
error the file cursor has been driven to end-of-stream. -/
def seekNext (r : SeekReader) : Except Err (List Nat) × SeekReader :=
  let s := r.payload.drop r.cur
  match read_exact s 4 with
  | .error e => (.error e, { r with cur := r.payload.length })
  | .ok (lenbuf, rest) =>
      let len := fromLE4 lenbuf
      match read_exact rest len with
      | .error e => (.error e, { r with cur := r.payload.length })
      | .ok (out, _) => (.ok out, { r with cur := r.cur + 4 + len })

/-- The out-of-range message built by `next_at`. -/
def rangeMsg (pos len : Nat) : String :=
  "trying to access data at " ++ toString pos ++ " but data length " ++ toString len

/-- `SeqDataReaderSeek::next_at` (src/lib.rs:306): reject `pos >= len` with a
descriptive error (file untouched), otherwise seek to `start + pos` and decode
one chunk there via `next`. -/
def seekNextAt (r : SeekReader) (pos : Nat) : Except Err (List Nat) × SeekReader :=
  if r.len ≤ pos then (.error (.io (rangeMsg pos r.len)), r)
  else seekNext { r with cur := pos }

/-!
## The async twin (src/nonblocking/mod.rs)

Under the shallow embedding every `.await` is just sequential composition, so
the async functions are modelled by the same kind of pure functions, written
from the nonblocking source. `write_chunk`, `optional_read_exact`,
`read_magic_and_header` and the open/`next_at` wrappers are byte-for-byte the
arithmetic already modelled above; the definitions below capture the parts
whose code is structured differently: `read_chunk` and the readers built on
it, in particular `SeqDataReaderSeek::next` which calls
`read_chunk(...).unwrap()`.
-/

/-- Async `write_chunk` (src/nonblocking/mod.rs:257): identical assertion and
bytes as the blocking `append`. -/
def asyncWriteChunk (file : List Nat) (data : List Nat) : Except Err (List Nat) :=
  if data.length ≤ 0xffffffff then .ok (file ++ toLE4 data.length ++ data)
  else .error (.panicked "assertion failed: data.len() <= max")

/-- Async `read_chunk` (src/nonblocking/mod.rs:235): `optional_read_exact` the
4-byte prefix, then `read_exact` the payload; `None` on clean end-of-stream. -/
def readChunk (s : List Nat) : Option (Except Err (List Nat × List Nat)) :=
  match optional_read_exact s 4 with
  | none => none
  | some (.error e) => some (.error e)
  | some (.ok (lenbuf, rest)) =>
      match read_exact rest (fromLE4 lenbuf) with
      | .error e => some (.error e)
      | .ok (out, rest2) => some (.ok (out, rest2))

/-- Async `SeqDataReader::next` (src/nonblocking/mod.rs:162): `read_chunk` on
the buffered stream; on success the offset is the previous `pos`, which then
advances by `4 + buf.len()`. -/
def asyncSeqNext (r : SeqReader) : Option (Except Err (Nat × List Nat)) × SeqReader :=
  match readChunk r.stream with
  | none => (none, r)
  | some (.error e) => (some (.error e), { r with stream := [] })
  | some (.ok (out, rest2)) =>
      (some (.ok (r.pos, out)),
       { r with stream := rest2, pos := r.pos + 4 + out.length })

/-- Async `SeqDataReaderSeek::next` (src/nonblocking/mod.rs:207):
`read_chunk(&mut self.handle).await.unwrap()` — a clean end-of-stream makes
`read_chunk` return `None` and the `unwrap` panics, where the blocking variant
returns the `UnexpectedEof` error. -/
def asyncSeekNext (r : SeekReader) : Except Err (List Nat) × SeekReader :=
  match readChunk (r.payload.drop r.cur) with
  | none => (.error (.panicked "called Option::unwrap() on a None value"), r)
  | some (.error e) => (.error e, { r with cur := r.payload.length })
  | some (.ok (out, _)) => (.ok out, { r with cur := r.cur + 4 + out.length })

/-- Async `SeqDataReaderSeek::next_at` (src/nonblocking/mod.rs:216): same
range check as the blocking variant, then seek and `next`. -/
def asyncSeekNextAt (r : SeekReader) (pos : Nat) : Except Err (List Nat) × SeekReader :=
  if r.len ≤ pos then (.error (.io (rangeMsg pos r.len)), r)
  else asyncSeekNext { r with cur := pos }

/-- The decode taxonomy stated by the specification for one `next()` call on a
remaining stream: `None` exactly when zero bytes are available; an error when
1–3 bytes of the length prefix are available; after reading length `L`, an
error when fewer than `L` payload bytes remain; otherwise the `L`-byte
payload (possibly empty) at the current offset. -/
def chunkDecodeSpec (s : List Nat) (pos : Nat) :
    Option (Except Err (Nat × List Nat)) :=
  if s.length = 0 then none
  else if s.length < 4 then some (.error (.io "buffer partially filled"))
  else
    let L := fromLE4 (s.take 4)
    if s.length - 4 < L then some (.error (.io "failed to fill whole buffer"))
    else some (.ok (pos, (s.drop 4).take L))

/-!
## Basic facts about the encoding
-/

/-- A 4-byte little-endian length prefix is 4 bytes long. -/
theorem toLE4_length (n : Nat) : (toLE4 n).length = 4 := rfl

/-- Little-endian round trip for values fitting the 4-byte field. -/
theorem fromLE4_toLE4 (n : Nat) (h : n ≤ 0xffffffff) : fromLE4 (toLE4 n) = n := by
  simp only [toLE4, fromLE4]
  omega

/-- A chunk's encoding occupies `4 + payload length` bytes. -/
theorem encodeChunk_length (p : List Nat) : (encodeChunk p).length = 4 + p.length := by
  simp [encodeChunk, toLE4]
  omega

/-- An encoded chunk sequence occupies `chunksSize` bytes. -/
theorem encodeChunks_length (ps : List (List Nat)) :
    (encodeChunks ps).length = chunksSize ps := by
  induction ps with
  | nil => rfl
  | cons p ps ih =>
      simp only [encodeChunks, chunksSize, List.length_append, encodeChunk_length, ih]

/-- Chunk encoding distributes over list concatenation. -/
theorem encodeChunks_append (qs rs : List (List Nat)) :
    encodeChunks (qs ++ rs) = encodeChunks qs ++ encodeChunks rs := by
  induction qs with
  | nil => rfl
  | cons p qs ih => simp [encodeChunks, ih]

/-- Taking a whole number of leading encoded chunks plus `n` further bytes. -/
theorem take_append_exact (l₁ l₂ : List Nat) (n : Nat) :
    (l₁ ++ l₂).take (l₁.length + n) = l₁ ++ l₂.take n := by
  induction l₁ with
  | nil => simp
  | cons a l₁ ih => simpa [List.length_cons, Nat.succ_add] using ih

/-!
## Behaviour of one sequential `next()` call
-/

/-- `optional_read_exact` on a 4-byte length buffer, by cases on how many
bytes the stream still holds. -/
theorem optional_read_exact_four (s : List Nat) :
    optional_read_exact s 4 =
      if s.length = 0 then none
      else if s.length < 4 then some (.error (.io "buffer partially filled"))
      else some (.ok (s.take 4, s.drop 4)) := by
  simp only [optional_read_exact]
  rcases Nat.eq_zero_or_pos s.length with h0 | h0
  · simp [h0]
  · rcases Nat.lt_or_ge s.length 4 with h4 | h4
    · rw [if_neg (by omega), if_pos (by omega), if_neg (by omega), if_pos (by omega)]
    · rw [if_neg (by omega), if_neg (by omega), if_neg (by omega), if_neg (by omega)]

/-- One `next()` call on a remaining stream realises exactly the specified
decode taxonomy (see `chunkDecodeSpec`): the `optional_read_exact` /
`read_exact` pair is a refinement of the four-case length analysis. -/
theorem seqNext_characterization (r : SeqReader) :
    (seqNext r).1 = chunkDecodeSpec r.stream r.pos := by
  rcases r with ⟨s, pos, len⟩
  have hd : (s.drop 4).length = s.length - 4 := by simp
  simp only [seqNext, chunkDecodeSpec, optional_read_exact_four]
  by_cases h0 : s.length = 0
  · simp [h0]
  · by_cases h4 : s.length < 4
    · simp [h0, h4]
    · simp only [if_neg h0, if_neg h4, read_exact]
      by_cases hL : s.length - 4 < fromLE4 (s.take 4)
      · rw [if_neg (by omega), if_pos hL]
      · rw [if_pos (by omega), if_neg hL]

/-- At a clean end of stream `next()` returns `None` and leaves the reader
state unchanged. -/
theorem seqNext_nil (pos len : Nat) :
    seqNext { stream := [], pos := pos, len := len } =
      (none, { stream := [], pos := pos, len := len }) := rfl

/-- Every call on an exhausted reader keeps answering `None`. -/
theorem runReader_nil (pos len n : Nat) :
    runReader { stream := [], pos := pos, len := len } n = List.replicate n none := by
  induction n with
  | zero => rfl
  | succ n ih => simp [runReader, seqNext_nil, ih, List.replicate_succ]

/-- Decoding one well-formed chunk from the front of the stream: the payload
and the current offset are returned, and the cursor advances by
`4 + payload length`. -/
theorem seqNext_chunk (p rest : List Nat) (pos len : Nat)
    (hp : p.length ≤ 0xffffffff) :
    seqNext { stream := encodeChunk p ++ rest, pos := pos, len := len } =
      (some (.ok (pos, p)),
       { stream := rest, pos := pos + 4 + p.length, len := len }) := by
  have hassoc : encodeChunk p ++ rest = toLE4 p.length ++ (p ++ rest) := by
    simp [encodeChunk]
  have hlen : (toLE4 p.length ++ (p ++ rest)).length = 4 + (p.length + rest.length) := by
    simp [toLE4]; omega
  have htake : (toLE4 p.length ++ (p ++ rest)).take 4 = toLE4 p.length :=
    List.take_left' (toLE4_length p.length)
  have hdrop : (toLE4 p.length ++ (p ++ rest)).drop 4 = p ++ rest :=
    List.drop_left' (toLE4_length p.length)
  simp only [seqNext, optional_read_exact, read_exact, hassoc, hlen]
  rw [if_neg (by omega), if_neg (by omega)]
  simp only [htake, hdrop, fromLE4_toLE4 p.length hp]
  rw [if_pos (by simp)]
  simp [List.take_left, List.drop_left]

/-- Running the reader through a prefix of well-formed chunks yields each
chunk with its running-sum offset, after which the reader continues on the
trailing bytes with the cursor advanced by the chunks' total size. -/
theorem runReader_chunks (qs : List (List Nat)) (tail : List Nat)
    (pos len n : Nat) (hq : ∀ p ∈ qs, p.length ≤ 0xffffffff) :
    runReader { stream := encodeChunks qs ++ tail, pos := pos, len := len }
        (qs.length + n) =
      expectedOuts pos qs ++
        runReader { stream := tail, pos := pos + chunksSize qs, len := len } n := by
  induction qs generalizing pos with
  | nil => simp [encodeChunks, expectedOuts, chunksSize]
  | cons p qs ih =>
      have hp : p.length ≤ 0xffffffff := hq p (by simp)
      have hq2 : ∀ q ∈ qs, q.length ≤ 0xffffffff := fun q hqmem => hq q (by simp [hqmem])
      have hstep := seqNext_chunk p (encodeChunks qs ++ tail) pos len hp
      have hlen : (p :: qs).length + n = (qs.length + n) + 1 := by simp; omega
      rw [hlen]
      simp only [runReader, encodeChunks, List.append_assoc, hstep, expectedOuts]
      rw [ih (pos + 4 + p.length) hq2]
      have harith : pos + 4 + p.length + chunksSize qs = pos + chunksSize (p :: qs) := by
        simp only [chunksSize]; omega
      rw [harith]
      simp

/-!
## The magic-checking loop and the open calls
-/

/-- An empty remaining slice ends the loop at once, whatever the fuel. -/
theorem readMagicLoop_nil (full fuel : Nat) (s : List Nat) :
    readMagicLoop full fuel [] s = .ok s := by
  cases fuel <;> rfl

/-- If the magic loop returns cleanly, it consumed exactly the remaining
slice's worth of bytes from the stream. -/
theorem readMagicLoop_ok_drop (full : Nat) :
    ∀ (fuel : Nat) (slice s s2 : List Nat),
      readMagicLoop full fuel slice s = .ok s2 → s2 = s.drop slice.length := by
  intro fuel
  induction fuel with
  | zero =>
      intro slice s s2 h
      cases slice with
      | nil => simp [readMagicLoop] at h; simp [h]
      | cons a rest => simp [readMagicLoop] at h
  | succ fuel ih =>
      intro slice s s2 h
      cases slice with
      | nil => simp [readMagicLoop] at h; simp [h]
      | cons a rest =>
          simp only [readMagicLoop] at h
          split_ifs at h with h1 h2 h3
          · have := ih ((a :: rest).drop (min (min full 16) s.length))
              (s.drop (min (min full 16) s.length)) s2 h
            rw [this, List.drop_drop, List.length_drop]
            congr 1
            have hle : min (min full 16) s.length ≤ (a :: rest).length := by omega
            omega

/-- On a stream that actually starts with the whole magic, a loop whose magic
fits the 16-byte read buffer succeeds and consumes exactly the magic. -/
theorem readMagicLoop_self (magic t : List Nat) (hm : magic.length ≤ 16) :
    readMagicLoop magic.length magic.length magic (magic ++ t) = .ok t := by
  cases magic with
  | nil => simp [readMagicLoop]
  | cons a rest =>
      have hlen : (a :: rest).length = rest.length + 1 := by simp
      have hmin1 : min ((a :: rest).length) 16 = (a :: rest).length := by omega
      have hmin2 : min ((a :: rest).length) ((a :: rest) ++ t).length = (a :: rest).length := by
        rw [List.length_append]; omega
      simp only [readMagicLoop, hlen]
      rw [show rest.length + 1 = (a :: rest).length from (by simp)]
      simp only [hmin1, hmin2]
      rw [if_neg (by simp), if_neg (by omega)]
      rw [if_neg (by simp [List.take_length, List.take_left])]
      rw [List.drop_length, List.drop_left]
      exact readMagicLoop_nil _ _ _

/-- Opening a well-formed file (magic fitting the 16-byte read buffer,
header of the declared size, then payload-domain bytes `t`) succeeds and
positions the sequential reader on `t` with `pos = 0` and `len = t.length`. -/
theorem seqOpen_wellFormed (fmt : Fmt) (header t : List Nat)
    (hm : fmt.magic.length ≤ 16) (hh : header.length = fmt.headerSize) :
    seqOpen fmt (fmt.magic ++ header ++ t) =
      .ok ({ stream := t, pos := 0, len := t.length }, header) := by
  have hlen : (fmt.magic ++ header ++ t).length =
      fmt.magic.length + fmt.headerSize + t.length := by
    simp [hh]; omega
  have hmagic : readMagicLoop fmt.magic.length fmt.magic.length fmt.magic
      (fmt.magic ++ header ++ t) = .ok (header ++ t) := by
    rw [List.append_assoc]
    exact readMagicLoop_self fmt.magic (header ++ t) hm
  have hhdr : read_exact (header ++ t) fmt.headerSize = .ok (header, t) := by
    rw [read_exact, if_pos (by simp [← hh])]
    rw [List.take_left' hh, List.drop_left' hh]
  simp only [seqOpen, get_file_length, hlen, read_magic_and_header, hmagic, hhdr]
  rw [if_neg (by omega)]
  have harith : fmt.magic.length + fmt.headerSize + t.length -
      (fmt.magic.length + fmt.headerSize) = t.length := by omega
  rw [harith]

/-- Inversion of a successful sequential open: the header and stream are the
slices of the file past the magic, and `len` is the metadata arithmetic. -/
theorem seqOpen_ok_inv (fmt : Fmt) (file : List Nat) (r : SeqReader)
    (h : List Nat) (hopen : seqOpen fmt file = .ok (r, h)) :
    fmt.magic.length + fmt.headerSize ≤ file.length ∧
    fmt.headerSize ≤ (file.drop fmt.magic.length).length ∧
    h = (file.drop fmt.magic.length).take fmt.headerSize ∧
    r.stream = (file.drop fmt.magic.length).drop fmt.headerSize ∧
    r.pos = 0 ∧
    r.len = file.length - (fmt.magic.length + fmt.headerSize) := by
  simp only [seqOpen, get_file_length] at hopen
  split_ifs at hopen with hshort
  simp only [read_magic_and_header] at hopen
  rcases hml : readMagicLoop fmt.magic.length fmt.magic.length fmt.magic file with e | rest
  · rw [hml] at hopen; simp at hopen
  · rw [hml] at hopen
    have hrest : rest = file.drop fmt.magic.length :=
      readMagicLoop_ok_drop fmt.magic.length fmt.magic.length fmt.magic file rest hml
    simp only [read_exact] at hopen
    split_ifs at hopen with hhs
    · simp only [Except.ok.injEq, Prod.mk.injEq] at hopen
      rcases hopen with ⟨hr, hh⟩
      subst hr
      subst hh
      refine ⟨by omega, by rw [← hrest]; exact hhs, ?_, ?_, rfl, rfl⟩
      · rw [hrest]
      · show rest.drop fmt.headerSize = _
        rw [hrest]

/-- The seekable open performs the same validation as the sequential open:
whenever the latter succeeds the former does, with the same payload view,
cached length and returned header, and cursor at the payload start. -/
theorem seekOpen_of_seqOpen (fmt : Fmt) (file : List Nat) (r : SeqReader)
    (h : List Nat) (hopen : seqOpen fmt file = .ok (r, h)) :
    seekOpen fmt file = .ok ({ payload := r.stream, len := r.len, cur := 0 }, h) := by
  simp only [seqOpen] at hopen
  simp only [seekOpen]
  rcases hgl : get_file_length fmt file with e | len
  · rw [hgl] at hopen; simp at hopen
  · rw [hgl] at hopen
    rcases hmh : read_magic_and_header fmt file with e | pr
    · rw [hmh] at hopen; simp at hopen
    · rw [hmh] at hopen
      rcases pr with ⟨hdr, rest⟩
      simp only [Except.ok.injEq, Prod.mk.injEq] at hopen
      rcases hopen with ⟨hr, hh⟩
      subst hr
      subst hh
      rfl

/-- Appending each payload of a bounded-length list produces exactly the
concatenated chunk encodings after the existing file contents. -/
theorem writerAppendAll_encodes (ps : List (List Nat)) (file : List Nat)
    (hp : ∀ p ∈ ps, p.length ≤ 0xffffffff) :
    writerAppendAll file ps = .ok (file ++ encodeChunks ps) := by
  induction ps generalizing file with
  | nil => simp [writerAppendAll, encodeChunks]
  | cons p ps ih =>
      have hp1 : p.length ≤ 0xffffffff := hp p (by simp)
      have hp2 : ∀ q ∈ ps, q.length ≤ 0xffffffff := fun q hq => hp q (by simp [hq])
      simp only [writerAppendAll, writerAppend, if_pos hp1]
      rw [ih (file ++ toLE4 p.length ++ p) hp2]
      simp [encodeChunks, encodeChunk]

/-- The `i`-th chunk's offset plus its length prefix still fits inside the
encoded sequence: every offset the reader reports is strictly below the
payload length. -/
theorem offsetOf_lt (ps : List (List Nat)) (i : Nat) (hi : i < ps.length) :
    offsetOf ps i + 4 ≤ chunksSize ps := by
  induction ps generalizing i with
  | nil => simp at hi
  | cons p ps ih =>
      cases i with
      | zero => simp [offsetOf, chunksSize]; omega
      | succ i =>
          have := ih i (by simpa using hi)
          simp only [offsetOf, List.take_succ_cons, chunksSize] at this ⊢
          omega

/-- Dropping the `i`-th offset's worth of bytes from an encoded sequence
leaves exactly the encodings of the chunks from `i` on. -/
theorem drop_offsetOf (ps : List (List Nat)) (i : Nat) (hi : i ≤ ps.length) :
    (encodeChunks ps).drop (offsetOf ps i) = encodeChunks (ps.drop i) := by
  induction ps generalizing i with
  | nil => simp [encodeChunks, offsetOf, chunksSize]
  | cons p ps ih =>
      cases i with
      | zero => simp [offsetOf, chunksSize]
      | succ i =>
          have hstep : offsetOf (p :: ps) (i + 1) = (encodeChunk p).length + offsetOf ps i := by
            simp only [offsetOf, List.take_succ_cons, chunksSize, encodeChunk_length]
          rw [hstep, List.drop_succ_cons]
          simp only [encodeChunks]
          rw [← List.drop_drop, List.drop_left]
          exact ih i (by simpa using hi)

/-- Decoding one chunk with the seekable reader's `next` when the bytes at the
cursor are a well-formed chunk encoding. -/
theorem seekNext_decodes (r : SeekReader) (p rest : List Nat)
    (hp : p.length ≤ 0xffffffff)
    (hs : r.payload.drop r.cur = encodeChunk p ++ rest) :
    (seekNext r).1 = .ok p := by
  have hassoc : encodeChunk p ++ rest = toLE4 p.length ++ (p ++ rest) := by
    simp [encodeChunk]
  have hlen : (toLE4 p.length ++ (p ++ rest)).length = 4 + (p.length + rest.length) := by
    simp [toLE4]; omega
  have htake : (toLE4 p.length ++ (p ++ rest)).take 4 = toLE4 p.length :=
    List.take_left' (toLE4_length p.length)
  have hdrop : (toLE4 p.length ++ (p ++ rest)).drop 4 = p ++ rest :=
    List.drop_left' (toLE4_length p.length)
  simp only [seekNext, hs, hassoc, read_exact, hlen]
  rw [if_pos (by omega)]
  simp only [htake, hdrop, fromLE4_toLE4 p.length hp]
  rw [if_pos (by simp)]
  simp [List.take_left]

/-- `next` never touches the payload view or the cached length: only the
cursor moves. -/
theorem seekNext_preserves (r : SeekReader) :
    (seekNext r).2.payload = r.payload ∧ (seekNext r).2.len = r.len := by
  simp only [seekNext]
  rcases h : read_exact (r.payload.drop r.cur) 4 with e | pr
  · simp
  · rcases pr with ⟨lenbuf, rest⟩
    rcases h2 : read_exact rest (fromLE4 lenbuf) with e | pr2
    · simp [h2]
    · rcases pr2 with ⟨out, rest2⟩
      simp [h2]

/-- `next_at` never touches the payload view or the cached length either, so
any sequence of `next_at` queries, in any order and with repetitions, is
answered from the same payload and length. -/
theorem seekNextAt_preserves (r : SeekReader) (q : Nat) :
    (seekNextAt r q).2.payload = r.payload ∧ (seekNextAt r q).2.len = r.len := by
  simp only [seekNextAt]
  split_ifs with hq
  · simp
  · exact seekNext_preserves { r with cur := q }

/-- Positional form of `expectedOuts`: the `j`-th answer is the `j`-th chunk
together with its running-sum offset. -/
theorem expectedOuts_getD (ps : List (List Nat)) (pos j : Nat)
    (hj : j < ps.length) :
    (expectedOuts pos ps).getD j none =
      some (.ok (pos + offsetOf ps j, ps.get ⟨j, hj⟩)) := by
  induction ps generalizing pos j with
  | nil => simp at hj
  | cons p ps ih =>
      cases j with
      | zero => simp [expectedOuts, offsetOf, chunksSize]
      | succ j =>
          have hj2 : j < ps.length := by simpa using hj
          simp only [expectedOuts, List.getD_cons_succ, ih (pos + 4 + p.length) j hj2]
          have : pos + 4 + p.length + offsetOf ps j = pos + offsetOf (p :: ps) (j + 1) := by
            simp only [offsetOf, List.take_succ_cons, chunksSize]
            omega
          rw [this]
          simp

/-- With the stream exhausted and magic bytes still unchecked, the loop always
fails (EOF error, or fuel exhaustion in the unreachable modelling branch). -/
theorem readMagicLoop_err_nil_stream (full fuel : Nat) (slice : List Nat)
    (hs : slice ≠ []) :
    ∃ e, readMagicLoop full fuel slice [] = .error e := by
  cases fuel with
  | zero => cases slice with
    | nil => exact absurd rfl hs
    | cons a rest => exact ⟨_, rfl⟩
  | succ fuel => cases slice with
    | nil => exact absurd rfl hs
    | cons a rest =>
        refine ⟨.io "unexpected EOF in magic reading", ?_⟩
        simp [readMagicLoop]

/-- A file whose leading bytes do not spell the magic makes the loop fail
(byte mismatch, or EOF when the file is even shorter than the magic), for any
magic fitting the 16-byte read buffer. -/
theorem readMagicLoop_mismatch (magic file : List Nat)
    (hm : magic.length ≤ 16) (hne : file.take magic.length ≠ magic) :
    ∃ e, readMagicLoop magic.length magic.length magic file = .error e := by
  cases magic with
  | nil => exact absurd (List.take_zero file) hne
  | cons a rest =>
      by_cases h0 : file.length = 0
      · rw [List.length_eq_zero.mp h0]
        exact readMagicLoop_err_nil_stream _ _ _ (by simp)
      · have hL : (a :: rest).length = rest.length + 1 := by simp
        have hmin16 : min ((a :: rest).length) 16 = (a :: rest).length := by omega
        by_cases hfl : (a :: rest).length ≤ file.length
        · have hrd : min ((a :: rest).length) file.length = (a :: rest).length := by omega
          refine ⟨.io "magic do not match expected value", ?_⟩
          simp only [readMagicLoop, hL]
          rw [show rest.length + 1 = (a :: rest).length from (by simp)]
          simp only [hmin16, hrd]
          rw [if_neg (by simp), if_neg (by omega)]
          rw [if_pos]
          rw [List.take_length]
          exact fun hcmp => hne (by rw [← hcmp])
        · have hlt : file.length < (a :: rest).length := by omega
          have hrd : min ((a :: rest).length) file.length = file.length := by omega
          by_cases hcmp : (a :: rest).take file.length = file.take file.length
          · have hdropslice : ((a :: rest).drop file.length) ≠ [] := by
              have : ((a :: rest).drop file.length).length = (a :: rest).length - file.length := by
                simp
              intro hnil
              rw [hnil] at this
              simp at this
              omega
            obtain ⟨e, he⟩ := readMagicLoop_err_nil_stream ((a :: rest).length)
              rest.length ((a :: rest).drop file.length) hdropslice
            refine ⟨e, ?_⟩
            simp only [readMagicLoop, hL]
            rw [show rest.length + 1 = (a :: rest).length from (by simp)]
            simp only [hmin16, hrd]
            rw [if_neg (by omega), if_neg (by omega), if_neg (by simpa using hcmp)]
            rw [List.drop_length]
            exact he
          · refine ⟨.io "magic do not match expected value", ?_⟩
            simp only [readMagicLoop, hL]
            rw [show rest.length + 1 = (a :: rest).length from (by simp)]
            simp only [hmin16, hrd]
            rw [if_neg (by omega), if_neg (by omega)]
            rw [if_pos hcmp]

/-- The out-of-range message can never be the `read_exact` EOF message. -/
theorem rangeMsg_ne_eof (p l : Nat) : rangeMsg p l ≠ "failed to fill whole buffer" := by
  intro h
  have h2 := congrArg (fun s => s.data.head?) h
  simp only [rangeMsg] at h2
  rw [String.data_append, String.data_append, String.data_append] at h2
  simp at h2

/-!
## The claims
-/

/-- C1. The round-trip property fails on the code for format descriptors whose
magic is longer than the 16-byte magic read buffer: the magic loop computes
each round's read size from `Format::MAGIC.len()` instead of the remaining
`magic_slice.len()`, so on the second round it reads up to 16 bytes and then
indexes `magic_slice[0..rd]` past the slice's end — a Rust panic. Concretely,
with a 17-byte magic, `header_size = 1` and the single payload `[1,2,3]`, the
writer builds the file fine, but `SeqDataReader::open` on that very file
panics instead of yielding the payload sequence, so the reader can never
return the chunks the round-trip promises. -/
theorem c1_long_magic_roundtrip_panics :
    writerCreate { magic := List.replicate 17 171, headerSize := 1 } none [7] =
      (.ok (), some (List.replicate 17 171 ++ [7])) ∧
    writerAppendAll (List.replicate 17 171 ++ [7]) [[1, 2, 3]] =
      .ok (fileOf { magic := List.replicate 17 171, headerSize := 1 } [7] [[1, 2, 3]]) ∧
    seqOpen { magic := List.replicate 17 171, headerSize := 1 }
        (fileOf { magic := List.replicate 17 171, headerSize := 1 } [7] [[1, 2, 3]]) =
      .error (.panicked "range end index out of range for slice") :=
  ⟨rfl, rfl, rfl⟩

/-- C3. Async/blocking parity fails for `SeqDataReaderSeek::next` at a clean
end of stream: the blocking variant's `read_exact` returns the
`UnexpectedEof` error, while the async variant runs
`read_chunk(...).await.unwrap()`, whose `read_chunk` returns `None` there, so
the `unwrap` panics instead of returning an error — contradicting both the
parity requirement and the function's own doc comment ("or None if reached
the end of file"). -/
theorem c3_async_blocking_divergence_at_eof :
    seekNext { payload := [], len := 0, cur := 0 } =
      (.error (.io "failed to fill whole buffer"),
       { payload := [], len := 0, cur := 0 : SeekReader }) ∧
    asyncSeekNext { payload := [], len := 0, cur := 0 } =
      (.error (.panicked "called Option::unwrap() on a None value"),
       { payload := [], len := 0, cur := 0 : SeekReader }) :=
  ⟨rfl, rfl⟩

/-- C4 (counterexample). `SeqDataWriter::open` does NOT fail when the stored
header differs from the supplied one: with an empty magic, `header_size = 1`,
a file whose stored header byte is `5`, and the supplied header `[9]`, the
open succeeds and returns the stored header — the claim says this must be
fatal. -/
theorem c4_header_mismatch_not_fatal :
    writerOpen { magic := [], headerSize := 1 } (some [5]) [9] = .ok [5] := rfl

/-- C4 (amended: restricted to formats whose magic fits the 16-byte read
buffer — for longer magics `open` panics in the magic loop even on a matching
file, the same slip reported under C1, so neither success nor a clean error
is reached). Under that restriction, `SeqDataWriter::open` is strict about
the magic: any file whose leading bytes do not spell the format's magic is
rejected. But it never compares the stored header bytes with the supplied
`header` argument: when the magic matches and a full header is present, the
open succeeds and returns the stored header, whatever the supplied header's
content (only its length is validated). -/
theorem c4_open_magic_strict_header_ignored
    (fmt : Fmt) (stored supplied rest file : List Nat)
    (hm : fmt.magic.length ≤ 16)
    (hsup : supplied.length = fmt.headerSize)
    (hsto : stored.length = fmt.headerSize)
    (hne : file.take fmt.magic.length ≠ fmt.magic) :
    writerOpen fmt (some (fmt.magic ++ stored ++ rest)) supplied = .ok stored ∧
    ∃ e, writerOpen fmt (some file) supplied = .error e := by
  constructor
  · have hmagic : readMagicLoop fmt.magic.length fmt.magic.length fmt.magic
        (fmt.magic ++ stored ++ rest) = .ok (stored ++ rest) := by
      rw [List.append_assoc]
      exact readMagicLoop_self fmt.magic (stored ++ rest) hm
    have hhdr : read_exact (stored ++ rest) fmt.headerSize = .ok (stored, rest) := by
      rw [read_exact, if_pos (by simp [← hsto])]
      rw [List.take_left' hsto, List.drop_left' hsto]
    simp only [writerOpen, read_magic_and_header, hmagic, hhdr]
    rw [if_neg (by omega)]
  · obtain ⟨e, he⟩ := readMagicLoop_mismatch fmt.magic file hm hne
    refine ⟨e, ?_⟩
    simp only [writerOpen, read_magic_and_header, he]
    rw [if_neg (by omega)]

/-- C4 (witness). A concrete instantiation: magic `[3]`, `header_size = 2`,
stored header `[1,2]`, supplied header `[8,9]`, and a mismatching file
starting with byte `4`. -/
theorem c4_open_magic_strict_header_ignored_witness :
    writerOpen { magic := [3], headerSize := 2 } (some ([3] ++ [1, 2] ++ [0]))
        [8, 9] = .ok [1, 2] ∧
    ∃ e, writerOpen { magic := [3], headerSize := 2 } (some [4, 9, 9, 9]) [8, 9] =
      .error e :=
  c4_open_magic_strict_header_ignored { magic := [3], headerSize := 2 }
    [1, 2] [8, 9] [0] [4, 9, 9, 9] (by decide) (by decide) (by decide) (by decide)

/-- C5. The chunk decode taxonomy: one `next()` call on any remaining stream
returns `None` exactly when zero bytes are available; an error when 1–3 bytes
of the 4-byte little-endian length prefix are available; after decoding
length `L`, an error when fewer than `L` payload bytes remain; and otherwise
the `L`-byte payload (possibly empty) — precisely `chunkDecodeSpec`. -/
theorem c5_chunk_decode_taxonomy (r : SeqReader) :
    (seqNext r).1 = chunkDecodeSpec r.stream r.pos :=
  seqNext_characterization r

/-- C7. End-of-stream idempotence: with the cursor exactly at the end of the
payload domain (an empty remaining stream), `next()` returns `None`, leaves
the reader unchanged, and every subsequent call keeps returning `None`. -/
theorem c7_end_of_stream_idempotent (pos len n : Nat) :
    seqNext { stream := [], pos := pos, len := len } =
      (none, { stream := [], pos := pos, len := len }) ∧
    runReader { stream := [], pos := pos, len := len } n = List.replicate n none :=
  ⟨seqNext_nil pos len, runReader_nil pos len n⟩

/-- C8. Out-of-range rejection: `next_at` with `pos ≥ len` returns the
descriptive out-of-range error and leaves the reader untouched — no chunk is
read or decoded. -/
theorem c8_out_of_range_rejection (r : SeekReader) (pos : Nat)
    (h : r.len ≤ pos) :
    seekNextAt r pos = (.error (.io (rangeMsg pos r.len)), r) := by
  simp only [seekNextAt, if_pos h]

/-- C8 (witness). Querying offset 0 of an empty payload domain. -/
theorem c8_out_of_range_rejection_witness :
    seekNextAt { payload := [], len := 0, cur := 0 } 0 =
      (.error (.io (rangeMsg 0 0)), { payload := [], len := 0, cur := 0 : SeekReader }) :=
  c8_out_of_range_rejection { payload := [], len := 0, cur := 0 } 0 (Nat.le_refl 0)

/-- C9. Configuration-error atomicity: `create` with a header of the wrong
size fails with the configuration error before the file is opened, so a
not-yet-existing path stays absent — no file is created, no byte written. -/
theorem c9_create_config_error_atomic (fmt : Fmt) (header : List Nat)
    (h : header.length ≠ fmt.headerSize) :
    writerCreate fmt none header =
      (.error (.io (headerSizeMsg fmt.headerSize header.length)), none) := by
  simp only [writerCreate, if_pos (Ne.symm h)]

/-- C9 (witness). `header_size = 0` with a one-byte header. -/
theorem c9_create_config_error_atomic_witness :
    writerCreate { magic := [], headerSize := 0 } none [1] =
      (.error (.io (headerSizeMsg 0 1)), none) :=
  c9_create_config_error_atomic { magic := [], headerSize := 0 } [1] (by decide)

/-- C10. The boundary gap in `next_at`: when the file is unchanged since open
(`len` equals the payload length) and `pos < len` but fewer than 4 bytes
remain at `pos`, the range check passes and the decode then fails with the
`read_exact` end-of-file error — which is not the out-of-range error the
`pos ≥ len` guard produces. -/
theorem c10_next_at_boundary_gap (r : SeekReader) (pos : Nat)
    (hlen : r.len = r.payload.length) (hpos : pos < r.len) (hgap : r.len - pos < 4) :
    (seekNextAt r pos).1 = .error (.io "failed to fill whole buffer") ∧
    (seekNextAt r pos).1 ≠ .error (.io (rangeMsg pos r.len)) := by
  have hmain : (seekNextAt r pos).1 = .error (.io "failed to fill whole buffer") := by
    simp only [seekNextAt]
    rw [if_neg (by omega)]
    simp only [seekNext, read_exact]
    rw [if_neg (by simp [List.length_drop]; omega)]
  refine ⟨hmain, ?_⟩
  rw [hmain]
  intro hcontra
  have : "failed to fill whole buffer" = rangeMsg pos r.len := by
    injection hcontra with h1
    injection h1
  exact rangeMsg_ne_eof pos r.len this.symm

/-- C10 (witness). A two-byte payload domain queried at offset 1: only one
byte remains there, short of a length prefix. -/
theorem c10_next_at_boundary_gap_witness :
    (seekNextAt { payload := [0, 0], len := 2, cur := 0 } 1).1 =
      .error (.io "failed to fill whole buffer") ∧
    (seekNextAt { payload := [0, 0], len := 2, cur := 0 } 1).1 ≠
      .error (.io (rangeMsg 1 2)) :=
  c10_next_at_boundary_gap { payload := [0, 0], len := 2, cur := 0 } 1
    (by decide) (by decide) (by decide)

/-- Reading a stream that is exactly a chunk-sequence encoding yields each
chunk with its running-sum offset. -/
theorem runReader_encodeChunks (ps : List (List Nat)) (pos len : Nat)
    (hp : ∀ p ∈ ps, p.length ≤ 0xffffffff) :
    runReader { stream := encodeChunks ps, pos := pos, len := len } ps.length =
      expectedOuts pos ps := by
  have h := runReader_chunks ps [] pos len 0 hp
  simpa [runReader] using h

/-- Decoding a chunk encoding cut short after `d` bytes (`1 ≤ d`, strictly
inside the length field or the payload) is an error — never `None` and never
a successful payload. -/
theorem seqNext_truncated_chunk (plast : List Nat) (d pos len : Nat)
    (hl : plast.length ≤ 0xffffffff) (hd1 : 1 ≤ d) (hd2 : d < 4 + plast.length) :
    ∃ e, (seqNext { stream := (encodeChunk plast).take d, pos := pos, len := len }).1 =
      some (.error (.io e)) := by
  have hlen : ((encodeChunk plast).take d).length = d := by
    rw [List.length_take, encodeChunk_length]
    omega
  rw [seqNext_characterization]
  rcases Nat.lt_or_ge d 4 with h4 | h4
  · refine ⟨"buffer partially filled", ?_⟩
    simp only [chunkDecodeSpec, hlen]
    rw [if_neg (by omega), if_pos (by omega)]
  · refine ⟨"failed to fill whole buffer", ?_⟩
    have htake4 : ((encodeChunk plast).take d).take 4 = toLE4 plast.length := by
      rw [List.take_take]
      have : min 4 d = 4 := by omega
      rw [this]
      exact List.take_left' (toLE4_length plast.length)
    simp only [chunkDecodeSpec, hlen, htake4, fromLE4_toLE4 plast.length hl]
    rw [if_neg (by omega), if_neg (by omega), if_pos (by omega)]

/-- C2. Offset addressability: for a file the writer produced (conjunct 1)
on which a sequential reader opened successfully, the reader's `next()`
answers are exactly the chunks with their running-sum offsets (conjuncts 2
and 3); the seekable reader opens on the same file with the same payload view
and cached length (conjunct 4); `next_at` at any offset the sequential reader
returned decodes the identical payload bytes, from any seek-reader state
sharing that payload view and length — hence in any query order (conjunct 5);
and `next_at` never changes the payload view or length, so repeated queries
keep receiving identical results (conjunct 6). -/
theorem c2_offset_addressability (fmt : Fmt) (header : List Nat)
    (ps : List (List Nat)) (r0 : SeqReader) (rh : List Nat) (i : Nat)
    (hh : header.length = fmt.headerSize)
    (hp : ∀ p ∈ ps, p.length ≤ 0xffffffff)
    (hopen : seqOpen fmt (fileOf fmt header ps) = .ok (r0, rh))
    (hi : i < ps.length) :
    writerAppendAll (fmt.magic ++ header) ps = .ok (fileOf fmt header ps) ∧
    runReader r0 ps.length = expectedOuts 0 ps ∧
    (∀ (j : Nat) (hj : j < ps.length),
      (runReader r0 ps.length).getD j none =
        some (.ok (offsetOf ps j, ps.get ⟨j, hj⟩))) ∧
    seekOpen fmt (fileOf fmt header ps) =
      .ok ({ payload := r0.stream, len := r0.len, cur := 0 }, rh) ∧
    (∀ r2 : SeekReader, r2.payload = r0.stream → r2.len = r0.len →
      (seekNextAt r2 (offsetOf ps i)).1 = .ok (ps.get ⟨i, hi⟩)) ∧
    (∀ (r2 : SeekReader) (q : Nat),
      (seekNextAt r2 q).2.payload = r2.payload ∧ (seekNextAt r2 q).2.len = r2.len) := by
  obtain ⟨hle, hhs, hhdr, hstream, hpos, hlen⟩ :=
    seqOpen_ok_inv fmt (fileOf fmt header ps) r0 rh hopen
  have hdropm : (fileOf fmt header ps).drop fmt.magic.length = header ++ encodeChunks ps := by
    simp only [fileOf, List.append_assoc]
    exact List.drop_left fmt.magic (header ++ encodeChunks ps)
  have hstream2 : r0.stream = encodeChunks ps := by
    rw [hstream, hdropm, List.drop_left' hh]
  have hlen2 : r0.len = chunksSize ps := by
    rw [hlen]
    simp only [fileOf, List.length_append, encodeChunks_length, hh]
    omega
  refine ⟨writerAppendAll_encodes ps (fmt.magic ++ header) hp, ?_, ?_, ?_, ?_, ?_⟩
  · rcases r0 with ⟨st, pp, ll⟩
    simp only at hstream2 hpos
    rw [hstream2, hpos]
    exact runReader_encodeChunks ps 0 ll hp
  · intro j hj
    rcases r0 with ⟨st, pp, ll⟩
    simp only at hstream2 hpos
    rw [hstream2, hpos, runReader_encodeChunks ps 0 ll hp, expectedOuts_getD ps 0 j hj]
    simp
  · exact seekOpen_of_seqOpen fmt (fileOf fmt header ps) r0 rh hopen
  · intro r2 hpay hrlen
    have hrange : offsetOf ps i + 4 ≤ chunksSize ps := offsetOf_lt ps i hi
    simp only [seekNextAt]
    rw [if_neg (by rw [hrlen, hlen2]; omega)]
    refine seekNext_decodes _ (ps.get ⟨i, hi⟩) (encodeChunks (ps.drop (i + 1)))
      (hp _ (List.get_mem ps i hi)) ?_
    show r2.payload.drop (offsetOf ps i) = _
    rw [hpay, hstream2, drop_offsetOf ps i (Nat.le_of_lt hi)]
    have hcons : ps.get ⟨i, hi⟩ :: ps.drop (i + 1) = ps.drop i := by
      rw [List.get_eq_getElem]
      exact List.getElem_cons_drop ps i hi
    rw [← hcons]
    rfl
  · intro r2 q
    exact seekNextAt_preserves r2 q

/-- C2 (witness). Format with magic `[1]` and no header; payloads `[5]` and
`[6,7]`; the second chunk's offset is 5 and `next_at 5` returns `[6,7]` from
any seek-reader state over that payload view. -/
theorem c2_offset_addressability_witness :
    runReader { stream := encodeChunks [[5], [6, 7]], pos := 0, len := 11 } 2 =
      expectedOuts 0 [[5], [6, 7]] ∧
    (∀ r2 : SeekReader, r2.payload = encodeChunks [[5], [6, 7]] → r2.len = 11 →
      (seekNextAt r2 (offsetOf [[5], [6, 7]] 1)).1 = .ok [6, 7]) := by
  have h := c2_offset_addressability { magic := [1], headerSize := 0 } []
    [[5], [6, 7]] { stream := encodeChunks [[5], [6, 7]], pos := 0, len := 11 } [] 1
    (by decide) (by decide) (by rfl) (by decide)
  exact ⟨h.2.1, fun r2 h1 h2 => h.2.2.2.2.1 r2 h1 h2⟩

/-- C6 (counterexample). For a format whose magic exceeds the 16-byte read
buffer, the unrestricted claim fails: with a 17-byte magic, a one-byte header
and one complete chunk `[1,2]` (a valid 24-byte file), truncating to 23 bytes
ends strictly inside the chunk's payload, yet the sequential reader cannot
yield 0 chunks and then a truncation error — `SeqDataReader::open` itself
panics in the magic loop (slice indexed past its end). -/
theorem c6_long_magic_truncation_counterexample :
    seqOpen { magic := List.replicate 17 171, headerSize := 1 }
        ((fileOf { magic := List.replicate 17 171, headerSize := 1 } [7] [[1, 2]]).take 23) =
      .error (.panicked "range end index out of range for slice") := rfl

/-- C6 (amended: restricted to formats whose magic fits the 16-byte read
buffer; longer magics make the reader's open panic, see the C1/C6
counterexamples). Truncated file detection: take a valid file whose chunks
are `qs ++ [plast]` and truncate it so that `t` bytes of the payload domain
remain, ending strictly inside the last chunk (`chunksSize qs < t <
chunksSize qs + 4 + plast.length` — inside its length field or payload). The
sequential reader opens successfully, yields the first `N−1` chunks with
their correct offsets and payloads, and then reports an error for the `N`-th:
not `None` and not a payload. -/
theorem c6_truncated_file_detection (fmt : Fmt) (header : List Nat)
    (qs : List (List Nat)) (plast : List Nat) (t : Nat)
    (hm : fmt.magic.length ≤ 16) (hh : header.length = fmt.headerSize)
    (hq : ∀ p ∈ qs, p.length ≤ 0xffffffff) (hl : plast.length ≤ 0xffffffff)
    (ht1 : chunksSize qs < t) (ht2 : t < chunksSize qs + (4 + plast.length)) :
    seqOpen fmt ((fileOf fmt header (qs ++ [plast])).take
        (fmt.magic.length + fmt.headerSize + t)) =
      .ok ({ stream := (encodeChunks (qs ++ [plast])).take t, pos := 0, len := t },
           header) ∧
    ∃ e, runReader
        { stream := (encodeChunks (qs ++ [plast])).take t, pos := 0, len := t }
        (qs.length + 1) = expectedOuts 0 qs ++ [some (.error (.io e))] := by
  have hencsplit : encodeChunks (qs ++ [plast]) = encodeChunks qs ++ encodeChunk plast := by
    rw [encodeChunks_append]
    simp [encodeChunks]
  have henclen : (encodeChunks (qs ++ [plast])).length =
      chunksSize qs + (4 + plast.length) := by
    rw [hencsplit, List.length_append, encodeChunks_length, encodeChunk_length]
  have htlen : ((encodeChunks (qs ++ [plast])).take t).length = t := by
    rw [List.length_take]
    omega
  constructor
  · have hfile : (fileOf fmt header (qs ++ [plast])).take
        (fmt.magic.length + fmt.headerSize + t) =
        fmt.magic ++ header ++ (encodeChunks (qs ++ [plast])).take t := by
      have hmh : (fmt.magic ++ header).length = fmt.magic.length + fmt.headerSize := by
        rw [List.length_append, hh]
      calc (fileOf fmt header (qs ++ [plast])).take
            (fmt.magic.length + fmt.headerSize + t)
          = ((fmt.magic ++ header) ++ encodeChunks (qs ++ [plast])).take
              ((fmt.magic ++ header).length + t) := by rw [fileOf, hmh]
        _ = (fmt.magic ++ header) ++ (encodeChunks (qs ++ [plast])).take t :=
              take_append_exact _ _ t
    rw [hfile]
    have hopen := seqOpen_wellFormed fmt header ((encodeChunks (qs ++ [plast])).take t) hm hh
    rw [htlen] at hopen
    exact hopen
  · set d := t - chunksSize qs with hdef
    have hd1 : 1 ≤ d := by omega
    have hd2 : d < 4 + plast.length := by omega
    have hsplit : (encodeChunks (qs ++ [plast])).take t =
        encodeChunks qs ++ (encodeChunk plast).take d := by
      rw [hencsplit]
      have ht : t = (encodeChunks qs).length + d := by
        rw [encodeChunks_length]
        omega
      rw [ht, take_append_exact]
    obtain ⟨e, he⟩ := seqNext_truncated_chunk plast d
      (0 + chunksSize qs) t hl hd1 hd2
    refine ⟨e, ?_⟩
    rw [hsplit, runReader_chunks qs ((encodeChunk plast).take d) 0 t 1 hq]
    congr 1
    simp only [runReader]
    rw [he]

/-- C6 (witness). Magic `[9]`, no header, first chunk `[1]`, last chunk
`[2,3]`; the payload domain is truncated to 7 bytes, inside the last chunk's
length field. -/
theorem c6_truncated_file_detection_witness :
    seqOpen { magic := [9], headerSize := 0 }
        ((fileOf { magic := [9], headerSize := 0 } [] [[1], [2, 3]]).take (1 + 0 + 7)) =
      .ok ({ stream := (encodeChunks [[1], [2, 3]]).take 7, pos := 0, len := 7 }, []) ∧
    ∃ e, runReader { stream := (encodeChunks [[1], [2, 3]]).take 7, pos := 0, len := 7 }
        (1 + 1) = expectedOuts 0 [[1]] ++ [some (.error (.io e))] := by
  have h := c6_truncated_file_detection { magic := [9], headerSize := 0 } []
    [[1]] [2, 3] 7 (by decide) (by decide) (by decide) (by decide) (by decide) (by decide)
  exact h
